import Mathlib

/-!
Verification development for the Michael-Scott dual-mode queue of
src/queue/ms_queue.rs. The queue is embedded shallowly: the node store is an
association list addressed by numeric ids, the null pointer is `Option.none`,
and every operation is a pure state transformer. Each compare-and-set of the
source is rendered as a comparison against the current state; since the
embedding executes operations atomically, a compare-and-set whose expected
value was loaded from the same state succeeds exactly when the loaded
condition holds, which is the single-threaded semantics of the source.
Epoch-based deferred destruction is modelled by leaving unlinked nodes in the
store: they are unreachable from `head` and never inspected again.
-/

set_option maxHeartbeats 1000000

namespace MsQueue

/-- Payload of a queue node: actual data that can be popped, or a blocked
request for data. The source stores a raw pointer to a stack-resident
`Signal`; the model stores a numeric signal id into the signal store. -/
inductive Payload (T : Type) where
  | Data : T → Payload T
  | Blocked : Nat → Payload T
deriving Repr, DecidableEq

/-- Queue node: a payload and the (nullable) id of the successor node. -/
structure Node (T : Type) where
  payload : Payload T
  next : Option Nat
deriving Repr, DecidableEq

/-- Blocked request for data: a slot for the value and the ready flag. The
thread handle of the source `Signal` is not represented; parking and
unparking are outside the sequential model. -/
structure Signal (T : Type) where
  data : Option T
  ready : Bool
deriving Repr, DecidableEq

/-- Source `Node::is_data`. -/
def Node.is_data {T : Type} (n : Node T) : Bool :=
  match n.payload with
  | Payload.Data _ => true
  | Payload.Blocked _ => false

/-- Whether a payload is a data payload. -/
def Payload.isDataP {T : Type} : Payload T → Bool
  | Payload.Data _ => true
  | Payload.Blocked _ => false

/-- State of the queue: the node store, the head and tail ids, a fresh node
id counter, the signal store and a fresh signal id counter. -/
structure QState (T : Type) where
  heap : List (Nat × Node T)
  head : Nat
  tail : Nat
  nextId : Nat
  sigs : List (Nat × Signal T)
  sigId : Nat
deriving Repr, DecidableEq

/-- Look up the value stored under key `i` in an association list store. -/
def alookup {β : Type} : List (Nat × β) → Nat → Option β
  | [], _ => none
  | (j, v) :: t, i => if j = i then some v else alookup t i

/-- Apply `f` to the value stored under key `i` in an association list
store. -/
def amodify {β : Type} : List (Nat × β) → Nat → (β → β) → List (Nat × β)
  | [], _, _ => []
  | (j, v) :: t, i, f =>
      if j = i then (j, f v) :: t else (j, v) :: amodify t i f

/-- Keys of an association list store. -/
def keysOf {β : Type} (h : List (Nat × β)) : List Nat :=
  h.map Prod.fst

variable {T : Type}

/-- Look up a node by id in the node store. -/
def lookupNode (h : List (Nat × Node T)) (i : Nat) : Option (Node T) :=
  alookup h i

/-- Overwrite the `next` field of the node with id `i`. -/
def setNext (h : List (Nat × Node T)) (i : Nat) (nx : Option Nat) :
    List (Nat × Node T) :=
  amodify h i (fun n => { n with next := nx })

/-- Publish a fresh node under id `i`. -/
def insertNode (h : List (Nat × Node T)) (i : Nat) (n : Node T) :
    List (Nat × Node T) :=
  (i, n) :: h

/-- Look up a signal by id in the signal store. -/
def lookupSig (gs : List (Nat × Signal T)) (i : Nat) : Option (Signal T) :=
  alookup gs i

/-- Overwrite the signal with id `i`. -/
def setSig (gs : List (Nat × Signal T)) (i : Nat) (g : Signal T) :
    List (Nat × Signal T) :=
  amodify gs i (fun _ => g)

/-- Register a fresh signal under id `i`. -/
def insertSig (gs : List (Nat × Signal T)) (i : Nat) (g : Signal T) :
    List (Nat × Signal T) :=
  (i, g) :: gs

/-- Source `MsQueue::new`: a single sentinel node, referenced by both `head`
and `tail`, with a null `next`. The sentinel payload is uninitialized memory
tagged `Data` in the source and is never read; it is modelled by the default
inhabitant. -/
def new [Inhabited T] : QState T :=
  { heap := [(0, { payload := Payload.Data default, next := none })]
    head := 0
    tail := 0
    nextId := 1
    sigs := []
    sigId := 0 }

/-- Source `impl Default for MsQueue`: delegates to `new`. -/
def defaultQ [Inhabited T] : QState T :=
  new

/-- Best-effort compare-and-set of the `tail` pointer. -/
def casTail (s : QState T) (expected target : Nat) : QState T :=
  if s.tail = expected then { s with tail := target } else s

/-- Source `MsQueue::push_internal`: attempt to link a node carrying payload
`p` behind the tail snapshot `onto`. If `onto.next` is non-null the snapshot
is stale: help advance `tail` and report failure, returning ownership of the
node (in the model, of its payload) to the caller. Otherwise the
compare-and-set of `onto.next` from null to the new node is the null test
re-evaluated on the same atomic state, so it succeeds: the node is published
under the fresh id, and `tail` is advanced best-effort. The first result
component reports success. -/
def push_internal (s : QState T) (onto : Nat) (p : Payload T) :
    Bool × QState T :=
  match lookupNode s.heap onto with
  | none => (false, s)
  | some ontoNode =>
    match ontoNode.next with
    | some nxt => (false, casTail s onto nxt)
    | none =>
      let nid := s.nextId
      let s1 : QState T :=
        { s with
          heap := setNext (insertNode s.heap nid { payload := p, next := none })
                    onto (some nid)
          nextId := nid + 1 }
      (true, casTail s1 onto nid)

/-- Source `MsQueue::pop_internal`: attempt to unlink the first data node.
Reports `Except.error ()` on a lost head race, `Except.ok none` when the
queue is observed empty or in blocking mode, and `Except.ok (some t)` with
the unlinked value otherwise. The unlinked sentinel stays in the store,
modelling deferred destruction. The branches returning `none` on a missing
node model dereferences that cannot occur in reachable states. -/
def pop_internal (s : QState T) : Except Unit (Option T × QState T) :=
  let hs := s.head
  match lookupNode s.heap hs with
  | none => Except.ok (none, s)
  | some hn =>
    match hn.next with
    | none => Except.ok (none, s)
    | some nid =>
      match lookupNode s.heap nid with
      | none => Except.ok (none, s)
      | some nxt =>
        match nxt.payload with
        | Payload.Blocked _ => Except.ok (none, s)
        | Payload.Data t =>
          if s.head = hs then Except.ok (some t, { s with head := nid })
          else Except.error ()

/-- Source `MsQueue::try_pop`: loop `pop_internal` until it does not report a
lost race. The loop body leaves the state unchanged on `Except.error`, and in
the atomic model `pop_internal` never reports a lost race (theorem
`pop_internal_ok`), so the first iteration is exact. -/
def try_pop (s : QState T) : Option T × QState T :=
  match pop_internal s with
  | Except.ok r => r
  | Except.error _ => (none, s)

/-- Source `MsQueue::is_empty`: load `head`, load its `next`; the queue is
reported empty when `next` is null or the successor payload is not data. -/
def is_empty (s : QState T) : Bool :=
  match lookupNode s.heap s.head with
  | none => true
  | some hn =>
    match hn.next with
    | none => true
    | some nid =>
      match lookupNode s.heap nid with
      | none => true
      | some nxt =>
        match nxt.payload with
        | Payload.Data _ => false
        | Payload.Blocked _ => true

/-- Hand-off of a value to the blocked request `b`: write the data slot, then
release-store the ready flag (the source also clones and unparks the
thread, which the model does not represent). -/
def deliver (s : QState T) (b : Nat) (t : T) : QState T :=
  { s with sigs := setSig s.sigs b { data := some t, ready := true } }

/-- One iteration of the retry loop of source `MsQueue::push`. In data mode
(tail node is data, or `head == tail` so only the sentinel remains) attempt
to link a data node onto the tail snapshot. In blocking mode attempt to
dequeue the first blocked node and hand the value off to its signal.
`Except.error` carries the state of a failed attempt that the loop retries. -/
def pushAttempt (s : QState T) (t : T) : Except (QState T) (QState T) :=
  let ts := s.tail
  match lookupNode s.heap ts with
  | none => Except.error s
  | some tn =>
    if tn.is_data = true ∨ s.head = ts then
      match push_internal s ts (Payload.Data t) with
      | (true, s1) => Except.ok s1
      | (false, s1) => Except.error s1
    else
      let hs := s.head
      match lookupNode s.heap hs with
      | none => Except.error s
      | some hn =>
        match hn.next with
        | none => Except.error s
        | some bid =>
          match lookupNode s.heap bid with
          | none => Except.error s
          | some bn =>
            match bn.payload with
            | Payload.Data _ => Except.error s
            | Payload.Blocked b =>
              if s.head = hs then Except.ok (deliver { s with head := bid } b t)
              else Except.error s

/-- Fueled retry loop of source `MsQueue::push`. Fuel exhaustion returns the
state unchanged; from reachable states the first attempt already succeeds. -/
def pushLoop : Nat → QState T → T → QState T
  | 0, s, _ => s
  | f + 1, s, t =>
    match pushAttempt s t with
    | Except.ok s1 => s1
    | Except.error s1 => pushLoop f s1 t

/-- Source `MsQueue::push`. -/
def push (s : QState T) (t : T) : QState T :=
  pushLoop (s.heap.length + 2) s t

/-- One iteration of the phase-two loop of source `MsQueue::pop`: try a
normal pop; on observed empty or blocking mode (also after a lost race, as in
the source) snapshot the tail, re-enter the loop when the tail is a data node
other than the sentinel, and otherwise attempt to link the blocked node
carrying signal `sid` onto the tail snapshot. -/
def popAttempt (s : QState T) (sid : Nat) :
    Except (QState T) (Option T × QState T) :=
  match pop_internal s with
  | Except.ok (some t, s1) => Except.ok (some t, s1)
  | _ =>
    let ts := s.tail
    match lookupNode s.heap ts with
    | none => Except.error s
    | some tn =>
      if tn.is_data = true ∧ ts ≠ s.head then Except.error s
      else
        match push_internal s ts (Payload.Blocked sid) with
        | (true, s1) => Except.ok (none, s1)
        | (false, s1) => Except.error s1

/-- Fueled phase-two loop of source `MsQueue::pop`. -/
def popLoop : Nat → QState T → Nat → Option T × QState T
  | 0, s, _ => (none, s)
  | f + 1, s, sid =>
    match popAttempt s sid with
    | Except.ok r => r
    | Except.error s1 => popLoop f s1 sid

/-- Source `MsQueue::pop`, up to the park loop. The fast path is a single
`pop_internal` (a lost race is impossible in the atomic model). When no data
is observed, a fresh signal is registered and a blocked node carrying it is
linked at the tail; the first result component `none` means the caller is
parked on that signal. The park loop itself and the final read of the signal
slot are represented by the signal store. -/
def pop_step (s : QState T) : Option T × QState T :=
  match pop_internal s with
  | Except.ok (some t, s1) => (some t, s1)
  | _ =>
    let sid := s.sigId
    let s1 : QState T :=
      { s with
        sigs := insertSig s.sigs sid { data := none, ready := false }
        sigId := sid + 1 }
    popLoop (s1.heap.length + 2) s1 sid

/-- Public operations of the queue, as schedule entries. -/
inductive Op (T : Type) where
  | pushOp : T → Op T
  | tryPopOp : Op T
  | popOp : Op T
  | isEmptyOp : Op T

/-- State transition of one public operation. `is_empty` performs only loads
in the source and leaves the state unchanged. -/
def stepState (s : QState T) : Op T → QState T
  | Op.pushOp t => push s t
  | Op.tryPopOp => (try_pop s).2
  | Op.popOp => (pop_step s).2
  | Op.isEmptyOp => s

/-- States reachable from a fresh queue by completed operations. -/
inductive Reach [Inhabited T] : QState T → Prop
  | init : Reach new
  | step : ∀ {s : QState T}, Reach s → ∀ op : Op T, Reach (stepState s op)

/-- Follow `next` pointers from node `i`, collecting the ids of the visited
nodes; the fuel bounds the number of steps. -/
def chainFrom (h : List (Nat × Node T)) : Nat → Nat → Option (List Nat)
  | 0, _ => none
  | f + 1, i =>
    match lookupNode h i with
    | none => none
    | some n =>
      match n.next with
      | none => some [i]
      | some j => (chainFrom h f j).map (fun l => i :: l)

/-- Ids of the nodes reachable from `head`, sentinel first. -/
def reachIds (s : QState T) : List Nat :=
  (chainFrom s.heap s.heap.length s.head).getD []

/-- Payload stored at node id `i`. -/
def payloadAt (h : List (Nat × Node T)) (i : Nat) : Option (Payload T) :=
  (lookupNode h i).map Node.payload

/-- Payloads of the nodes with the given ids. -/
def payloadsOf (h : List (Nat × Node T)) (ids : List Nat) : List (Payload T) :=
  ids.filterMap (payloadAt h)

/-- Payloads of the non-sentinel nodes reachable from `head`. -/
def queuePayloads (s : QState T) : List (Payload T) :=
  payloadsOf s.heap ((reachIds s).drop 1)

/-- Data values contained in a payload list. -/
def dataVals (ps : List (Payload T)) : List T :=
  ps.filterMap (fun p =>
    match p with
    | Payload.Data t => some t
    | Payload.Blocked _ => none)

/-- Data values of the non-sentinel nodes reachable from `head`. -/
def queueData (s : QState T) : List T :=
  dataVals (queuePayloads s)

/-- Values already delivered into ready signals of parked `pop` callers. -/
def readyList (gs : List (Nat × Signal T)) : List T :=
  gs.filterMap (fun kg => if kg.2.ready then kg.2.data else none)

/-- Signal ids referenced by the blocked payloads of a payload list. -/
def blockedRefs (ps : List (Payload T)) : List Nat :=
  ps.filterMap (fun p =>
    match p with
    | Payload.Data _ => none
    | Payload.Blocked b => some b)

/-- Every payload of the list is data. -/
def allData (ps : List (Payload T)) : Prop :=
  ∀ p ∈ ps, p.isDataP = true

/-- Every payload of the list is a blocked request. -/
def allBlocked (ps : List (Payload T)) : Prop :=
  ∀ p ∈ ps, p.isDataP = false

/-- Mode uniformity of a payload list. -/
def Uniform (ps : List (Payload T)) : Prop :=
  allData ps ∨ allBlocked ps

/-- Decidable mode uniformity. -/
def uniformB (ps : List (Payload T)) : Bool :=
  ps.all Payload.isDataP || ps.all (fun p => !p.isDataP)

/-- Whether some reachable non-sentinel node carries data. -/
def hasDataB (s : QState T) : Bool :=
  (queuePayloads s).any Payload.isDataP

/-- Whether some reachable non-sentinel node is a blocked request. -/
def hasBlockedB (s : QState T) : Bool :=
  (queuePayloads s).any (fun p => !p.isDataP)

/-- The `next` pointer of the sentinel. -/
def headNextOf (s : QState T) : Option Nat :=
  (lookupNode s.heap s.head).bind Node.next

/-- Payload of the node referenced by the `next` pointer of the sentinel. -/
def frontPayload (s : QState T) : Option (Payload T) :=
  match lookupNode s.heap s.head with
  | none => none
  | some hn =>
    match hn.next with
    | none => none
    | some nid => payloadAt s.heap nid

/-- Value of the front data node, when there is one. -/
def frontDataVal (s : QState T) : Option T :=
  match frontPayload s with
  | some (Payload.Data t) => some t
  | _ => none

/-- Modelled from the spec, section on is_empty: snapshot `head`, load its
`next`; empty iff `next` is null or the successor payload is Blocked. -/
def emptySpec (s : QState T) : Bool :=
  match frontPayload s with
  | none => true
  | some p => !p.isDataP

/-- Chain predicate: from the node `i` (exclusive), following `next` pointers
visits exactly the nodes with ids `ids` carrying payloads `ps`, and the last
visited node (or `i` itself when `ids` is empty) has a null `next`. -/
inductive Seg (h : List (Nat × Node T)) : Nat → List Nat → List (Payload T) → Prop where
  | nil : ∀ {i : Nat} {n : Node T},
      lookupNode h i = some n → n.next = none → Seg h i [] []
  | cons : ∀ {i : Nat} {n : Node T} {j : Nat} {nj : Node T} {ids : List Nat}
      {ps : List (Payload T)},
      lookupNode h i = some n → n.next = some j → lookupNode h j = some nj →
      Seg h j ids ps → Seg h i (j :: ids) (nj.payload :: ps)

/-- Structural invariant of a queue state, parametrised by the ids and
payloads of the non-sentinel reachable nodes: the reachable list is an
acyclic chain from the sentinel ending at `tail`, node and signal ids are
below their freshness counters, the payloads are mode uniform, and every
reachable blocked payload references a distinct signal that is still
waiting. -/
structure InvAt (s : QState T) (ids : List Nat) (ps : List (Payload T)) :
    Prop where
  seg : Seg s.heap s.head ids ps
  tail_last : (s.head :: ids).getLast? = some s.tail
  nodup : (s.head :: ids).Nodup
  keys_lt : ∀ k ∈ keysOf s.heap, k < s.nextId
  sig_lt : ∀ k ∈ keysOf s.sigs, k < s.sigId
  uni : Uniform ps
  bl_wait : ∀ b ∈ blockedRefs ps,
    lookupSig s.sigs b = some { data := none, ready := false }
  bl_nodup : (blockedRefs ps).Nodup

/-- Structural invariant of a queue state. -/
def Inv (s : QState T) : Prop :=
  ∃ ids ps, InvAt s ids ps

/-- Run a schedule of operations, accumulating the final state, the values
supplied by completed pushes and the values returned by pops. -/
def runAcc (s : QState T) : List (Op T) → QState T × List T × List T
  | [] => (s, [], [])
  | op :: rest =>
    let r := runAcc (stepState s op) rest
    match op with
    | Op.pushOp t => (r.1, t :: r.2.1, r.2.2)
    | Op.tryPopOp =>
      match (try_pop s).1 with
      | some v => (r.1, r.2.1, v :: r.2.2)
      | none => r
    | Op.popOp =>
      match (pop_step s).1 with
      | some v => (r.1, r.2.1, v :: r.2.2)
      | none => r
    | Op.isEmptyOp => r

/-- Perform `n` successive `try_pop` calls, collecting the results. -/
def popN : QState T → Nat → List (Option T) × QState T
  | s, 0 => ([], s)
  | s, n + 1 =>
    let r := try_pop s
    let rest := popN r.2 n
    (r.1 :: rest.1, rest.2)

/-- Push every value of the list, in order. -/
def pushAll (s : QState T) (l : List T) : QState T :=
  l.foldl push s

/-! Lemmas about the association list stores. -/

theorem alookup_amodify {β : Type} (h : List (Nat × β)) (k : Nat) (f : β → β)
    (i : Nat) :
    alookup (amodify h k f) i =
      if k = i then (alookup h i).map f else alookup h i := by
  induction h with
  | nil => simp [amodify, alookup]
  | cons hd tl ih =>
    obtain ⟨j, v⟩ := hd
    by_cases hjk : j = k
    · subst hjk
      by_cases hji : j = i
      · subst hji; simp [amodify, alookup]
      · simp [amodify, alookup, hji]
    · by_cases hji : j = i
      · have hki : ¬ k = i := fun hc => hjk (hji.trans hc.symm)
        have hik : ¬ i = k := fun hc => hki hc.symm
        simp [amodify, alookup, hjk, hji, hki, hik]
      · simp [amodify, alookup, hjk, hji, ih]

theorem keysOf_amodify {β : Type} (h : List (Nat × β)) (k : Nat) (f : β → β) :
    keysOf (amodify h k f) = keysOf h := by
  induction h with
  | nil => simp [amodify]
  | cons hd tl ih =>
    obtain ⟨j, v⟩ := hd
    by_cases hjk : j = k
    · subst hjk; simp [amodify, keysOf]
    · simp [amodify, keysOf, hjk]
      simpa [keysOf] using ih

theorem mem_keysOf_of_alookup {β : Type} {h : List (Nat × β)} {i : Nat}
    {v : β} (hl : alookup h i = some v) : i ∈ keysOf h := by
  induction h with
  | nil => simp [alookup] at hl
  | cons hd tl ih =>
    obtain ⟨j, w⟩ := hd
    by_cases hji : j = i
    · subst hji; simp [keysOf]
    · simp [alookup, hji] at hl
      simp [keysOf]
      exact Or.inr (by simpa [keysOf] using ih hl)

theorem alookup_eq_none {β : Type} {h : List (Nat × β)} {i : Nat}
    (hi : i ∉ keysOf h) : alookup h i = none := by
  cases hl : alookup h i with
  | none => rfl
  | some v => exact absurd (mem_keysOf_of_alookup hl) hi

theorem alookup_cons {β : Type} (j : Nat) (v : β) (t : List (Nat × β))
    (i : Nat) :
    alookup ((j, v) :: t) i = if j = i then some v else alookup t i := rfl

theorem appendHeap_lookup_other {h : List (Nat × Node T)} {nid tl i : Nat}
    {p : Payload T} (hne1 : i ≠ tl) (hne2 : i ≠ nid) :
    lookupNode (setNext (insertNode h nid { payload := p, next := none }) tl
      (some nid)) i = lookupNode h i := by
  unfold setNext insertNode lookupNode
  rw [alookup_amodify, if_neg (fun hc => hne1 hc.symm), alookup_cons,
    if_neg (fun hc => hne2 hc.symm)]

theorem appendHeap_lookup_tail {h : List (Nat × Node T)} {nid tl : Nat}
    {p : Payload T} {n : Node T} (hne : tl ≠ nid)
    (hlk : lookupNode h tl = some n) :
    lookupNode (setNext (insertNode h nid { payload := p, next := none }) tl
      (some nid)) tl = some { n with next := some nid } := by
  unfold setNext insertNode lookupNode
  rw [alookup_amodify, if_pos rfl, alookup_cons,
    if_neg (fun hc => hne hc.symm)]
  unfold lookupNode at hlk
  rw [hlk]
  rfl

theorem appendHeap_lookup_new {h : List (Nat × Node T)} {nid tl : Nat}
    {p : Payload T} (hne : tl ≠ nid) :
    lookupNode (setNext (insertNode h nid { payload := p, next := none }) tl
      (some nid)) nid = some { payload := p, next := none } := by
  unfold setNext insertNode lookupNode
  rw [alookup_amodify, if_neg hne, alookup_cons, if_pos rfl]

theorem casTail_heap (s : QState T) (e t : Nat) :
    (casTail s e t).heap = s.heap := by
  unfold casTail; split <;> rfl

theorem casTail_head (s : QState T) (e t : Nat) :
    (casTail s e t).head = s.head := by
  unfold casTail; split <;> rfl

theorem casTail_sigs (s : QState T) (e t : Nat) :
    (casTail s e t).sigs = s.sigs := by
  unfold casTail; split <;> rfl

theorem casTail_nextId (s : QState T) (e t : Nat) :
    (casTail s e t).nextId = s.nextId := by
  unfold casTail; split <;> rfl

theorem casTail_sigId (s : QState T) (e t : Nat) :
    (casTail s e t).sigId = s.sigId := by
  unfold casTail; split <;> rfl

theorem casTail_tail (s : QState T) (e t : Nat) :
    (casTail s e t).tail = (if s.tail = e then t else s.tail) := by
  unfold casTail; split <;> simp_all

/-! Elementary facts about the operations, and the claims that hold in every
state of the model. -/

/-- The head compare-and-set of `pop_internal` compares against a snapshot
taken from the same atomic state, so it always succeeds. -/
theorem pop_internal_ok (s : QState T) :
    ∃ r, pop_internal s = Except.ok r := by
  rcases h1 : lookupNode s.heap s.head with _ | hn
  · exact ⟨(none, s), by simp [pop_internal, h1]⟩
  · rcases h2 : hn.next with _ | nid
    · exact ⟨(none, s), by simp [pop_internal, h1, h2]⟩
    · rcases h3 : lookupNode s.heap nid with _ | nxt
      · exact ⟨(none, s), by simp [pop_internal, h1, h2, h3]⟩
      · rcases h4 : nxt.payload with t | b
        · exact ⟨(some t, { s with head := nid }),
            by simp [pop_internal, h1, h2, h3, h4]⟩
        · exact ⟨(none, s), by simp [pop_internal, h1, h2, h3, h4]⟩

/-- Claim C9: in single-threaded execution `pop_internal` never reports a
lost race, because the head compare-and-set is performed against a snapshot
no other thread can invalidate; hence every sequential `try_pop` call is
decided by exactly one invocation of `pop_internal`. -/
theorem claim9_pop_internal_no_race (s : QState T) :
    ∃ r, pop_internal s = Except.ok r ∧ try_pop s = r := by
  obtain ⟨r, hr⟩ := pop_internal_ok s
  exact ⟨r, hr, by simp [try_pop, hr]⟩

/-- Claim C9 witness at a concrete state. -/
theorem claim9_pop_internal_no_race_witness :
    ∃ r, pop_internal (new : QState Nat) = Except.ok r ∧
      try_pop (new : QState Nat) = r :=
  claim9_pop_internal_no_race (new : QState Nat)

/-- Claim C5: `try_pop` returns `none` exactly when no data node is at the
front (the result is the value of the front data node, if any), and it never
installs a waiter node, never registers a signal, and never blocks: the node
store, the signal store and the tail are untouched, and on `none` the state
is completely unchanged. -/
theorem claim5_try_pop_front_data (s : QState T) :
    (try_pop s).1 = frontDataVal s ∧
    (try_pop s).2.heap = s.heap ∧
    (try_pop s).2.sigs = s.sigs ∧
    (try_pop s).2.tail = s.tail ∧
    (frontDataVal s = none → (try_pop s).2 = s) := by
  rcases h1 : lookupNode s.heap s.head with _ | hn
  · simp [try_pop, pop_internal, frontDataVal, frontPayload, h1]
  · rcases h2 : hn.next with _ | nid
    · simp [try_pop, pop_internal, frontDataVal, frontPayload, h1, h2]
    · rcases h3 : lookupNode s.heap nid with _ | nxt
      · simp [try_pop, pop_internal, frontDataVal, frontPayload, payloadAt,
          h1, h2, h3]
      · rcases h4 : nxt.payload with t | b
        · simp [try_pop, pop_internal, frontDataVal, frontPayload, payloadAt,
            h1, h2, h3, h4]
        · simp [try_pop, pop_internal, frontDataVal, frontPayload, payloadAt,
            h1, h2, h3, h4]

/-- Claim C8: `is_empty` does not modify the queue: iterating it any number
of times leaves the state unchanged, so repeated calls report the same
answer and a subsequent `try_pop` still returns the front value. -/
theorem claim8_is_empty_frame (s : QState T) (n : Nat) :
    (fun q : QState T => stepState q Op.isEmptyOp)^[n] s = s ∧
    is_empty ((fun q : QState T => stepState q Op.isEmptyOp)^[n] s) =
      is_empty s ∧
    try_pop ((fun q : QState T => stepState q Op.isEmptyOp)^[n] s) =
      try_pop s := by
  have h : (fun q : QState T => stepState q Op.isEmptyOp) = id := rfl
  rw [h]
  simp

/-- Claim C10: the `Default` instance constructs exactly the queue of `new`:
head and tail reference the same single sentinel node whose `next` is null,
so the two constructors are interchangeable. -/
theorem claim10_default_eq_new (T : Type) [Inhabited T] :
    (defaultQ : QState T) = new ∧
    (new : QState T).head = (new : QState T).tail ∧
    lookupNode (new : QState T).heap (new : QState T).head =
      some { payload := Payload.Data default, next := none } ∧
    headNextOf (new : QState T) = none :=
  ⟨rfl, rfl, rfl, rfl⟩

/-- Claim C6: `push_internal` on a tail snapshot `onto`: when `onto.next` is
non-null it only performs the best-effort tail advance and reports failure,
returning the unpublished node to the caller with the list unchanged; when
`onto.next` is null the compare-and-set from null succeeds, the node is
linked as the new last node under the fresh id, every other node is
untouched, and the tail is advanced best-effort to the new node. -/
theorem claim6_push_internal_contract (s : QState T) (onto : Nat)
    (p : Payload T) (o : Node T)
    (hlk : lookupNode s.heap onto = some o)
    (hfresh : ∀ k ∈ keysOf s.heap, k < s.nextId) :
    (∀ nx, o.next = some nx →
      (push_internal s onto p).1 = false ∧
      (push_internal s onto p).2.heap = s.heap ∧
      (push_internal s onto p).2.head = s.head ∧
      (push_internal s onto p).2.sigs = s.sigs ∧
      (push_internal s onto p).2.tail =
        (if s.tail = onto then nx else s.tail)) ∧
    (o.next = none →
      (push_internal s onto p).1 = true ∧
      lookupNode (push_internal s onto p).2.heap s.nextId =
        some { payload := p, next := none } ∧
      lookupNode (push_internal s onto p).2.heap onto =
        some { o with next := some s.nextId } ∧
      (∀ i, i ≠ onto → i ≠ s.nextId →
        lookupNode (push_internal s onto p).2.heap i = lookupNode s.heap i) ∧
      (push_internal s onto p).2.head = s.head ∧
      (push_internal s onto p).2.sigs = s.sigs ∧
      (push_internal s onto p).2.tail =
        (if s.tail = onto then s.nextId else s.tail)) := by
  have hlk0 : alookup s.heap onto = some o := hlk
  have honto : onto ≠ s.nextId := by
    have := hfresh onto (mem_keysOf_of_alookup hlk)
    omega
  constructor
  · intro nx hnx
    have hpi : push_internal s onto p = (false, casTail s onto nx) := by
      simp [push_internal, hlk, hnx]
    rw [hpi]
    exact ⟨rfl, casTail_heap s onto nx, casTail_head s onto nx,
      casTail_sigs s onto nx, casTail_tail s onto nx⟩
  · intro hnx
    have hpi : push_internal s onto p =
        (true, casTail
          { s with
            heap := setNext (insertNode s.heap s.nextId
                      { payload := p, next := none }) onto (some s.nextId)
            nextId := s.nextId + 1 } onto s.nextId) := by
      simp [push_internal, hlk, hnx]
    rw [hpi]
    refine ⟨rfl, ?_, ?_, ?_, by rw [casTail_head], by rw [casTail_sigs],
      by rw [casTail_tail]⟩
    · rw [casTail_heap]
      simp [setNext, lookupNode, insertNode, alookup_amodify, alookup, honto]
    · rw [casTail_heap]
      simp [setNext, lookupNode, insertNode, alookup_amodify, alookup,
        honto.symm, hlk0]
    · intro i hi1 hi2
      rw [casTail_heap]
      have h1 : ¬ onto = i := fun hc => hi1 hc.symm
      have h2 : ¬ s.nextId = i := fun hc => hi2 hc.symm
      simp [setNext, lookupNode, insertNode, alookup_amodify, alookup, h1, h2]

/-! Lemmas about the chain predicate. -/

theorem seg_mem_lookup {h : List (Nat × Node T)} {i : Nat} {ids : List Nat}
    {ps : List (Payload T)} (hs : Seg h i ids ps) :
    ∀ j ∈ i :: ids, ∃ n, lookupNode h j = some n := by
  induction hs with
  | nil hlk hnx =>
    intro j hj
    simp only [List.mem_singleton] at hj
    subst hj
    exact ⟨_, hlk⟩
  | cons hlk hnx hlkj hrest ih =>
    intro j hj
    rcases List.mem_cons.mp hj with hj | hj
    · subst hj; exact ⟨_, hlk⟩
    · exact ih j hj

theorem seg_mem_keys {h : List (Nat × Node T)} {i : Nat} {ids : List Nat}
    {ps : List (Payload T)} (hs : Seg h i ids ps) :
    ∀ j ∈ i :: ids, j ∈ keysOf h := by
  intro j hj
  obtain ⟨n, hn⟩ := seg_mem_lookup hs j hj
  exact mem_keysOf_of_alookup hn

theorem seg_length {h : List (Nat × Node T)} {i : Nat} {ids : List Nat}
    {ps : List (Payload T)} (hs : Seg h i ids ps) :
    ids.length = ps.length := by
  induction hs with
  | nil hlk hnx => rfl
  | cons hlk hnx hlkj hrest ih => simpa using ih

theorem seg_payloadsOf {h : List (Nat × Node T)} {i : Nat} {ids : List Nat}
    {ps : List (Payload T)} (hs : Seg h i ids ps) :
    payloadsOf h ids = ps := by
  induction hs with
  | nil hlk hnx => rfl
  | cons hlk hnx hlkj hrest ih =>
    simp [payloadsOf, payloadAt, hlkj] at ih ⊢
    exact ih

theorem seg_last_info {h : List (Nat × Node T)} {i : Nat} {ids : List Nat}
    {ps : List (Payload T)} (hs : Seg h i ids ps) :
    ∃ tl n, (i :: ids).getLast? = some tl ∧ lookupNode h tl = some n ∧
      n.next = none ∧ (ids = [] → tl = i) ∧
      (ids ≠ [] → some n.payload = ps.getLast?) := by
  induction hs with
  | nil hlk hnx =>
    exact ⟨_, _, rfl, hlk, hnx, fun _ => rfl, fun hc => absurd rfl hc⟩
  | cons hlk hnx hlkj hrest ih =>
    rename_i i0 n0 j0 nj0 ids0 ps0
    obtain ⟨tl, n, h1, h2, h3, h4, h5⟩ := ih
    refine ⟨tl, n, ?_, h2, h3, ?_, ?_⟩
    · rw [List.getLast?_cons_cons]
      exact h1
    · intro hc
      exact absurd hc (List.cons_ne_nil _ _)
    · intro _
      cases ids0 with
      | nil =>
        cases hrest with
        | nil hlk2 hnx2 =>
          have htl : tl = j0 := by
            simp only [List.getLast?_singleton, Option.some.injEq] at h1
            exact h1.symm
          subst htl
          rw [hlkj] at h2
          cases h2
          rfl
      | cons k ids1 =>
        have hps0 : ps0 ≠ [] := by
          have := seg_length hrest
          intro hc
          subst hc
          simp at this
        have h6 := h5 (by simp)
        rw [h6]
        cases ps0 with
        | nil => exact absurd rfl hps0
        | cons q ps1 => rw [List.getLast?_cons_cons]

theorem seg_frame {h h2 : List (Nat × Node T)} {i : Nat} {ids : List Nat}
    {ps : List (Payload T)} (hs : Seg h i ids ps) :
    (∀ j ∈ i :: ids, lookupNode h2 j = lookupNode h j) → Seg h2 i ids ps := by
  induction hs with
  | nil hlk hnx =>
    intro hsame
    rename_i i0 n0
    exact Seg.nil ((hsame i0 (by simp)).trans hlk) hnx
  | cons hlk hnx hlkj hrest ih =>
    intro hsame
    rename_i i0 n0 j0 nj0 ids0 ps0
    refine Seg.cons ((hsame i0 (by simp)).trans hlk) hnx
      ((hsame j0 (by simp)).trans hlkj) ?_
    exact ih (fun j hj => hsame j (List.mem_cons_of_mem _ hj))

theorem seg_append {h : List (Nat × Node T)} {i : Nat} {ids : List Nat}
    {ps : List (Payload T)} {tl nid : Nat} (p : Payload T)
    (hs : Seg h i ids ps) :
    (i :: ids).getLast? = some tl → (i :: ids).Nodup → nid ∉ keysOf h →
    Seg (setNext (insertNode h nid { payload := p, next := none }) tl
      (some nid)) i (ids ++ [nid]) (ps ++ [p]) := by
  induction hs with
  | nil hlk hnx =>
    intro hlast hnd hfresh
    rename_i i0 n0
    have htl : tl = i0 := by
      simp only [List.getLast?_singleton, Option.some.injEq] at hlast
      exact hlast.symm
    subst htl
    have hne : tl ≠ nid := fun hc => hfresh (hc ▸ mem_keysOf_of_alookup hlk)
    have hlk1 := appendHeap_lookup_tail (p := p) hne hlk
    have hlk2 := appendHeap_lookup_new (h := h) (p := p) hne
    exact Seg.cons hlk1 rfl hlk2 (Seg.nil hlk2 rfl)
  | cons hlk hnx hlkj hrest ih =>
    intro hlast hnd hfresh
    rename_i i0 n0 j0 nj0 ids0 ps0
    have hlast2 : (j0 :: ids0).getLast? = some tl := by
      rw [List.getLast?_cons_cons] at hlast
      exact hlast
    have hnd2 : (j0 :: ids0).Nodup := hnd.of_cons
    have hi0 : i0 ∉ (j0 :: ids0) := (List.nodup_cons.mp hnd).1
    have htlmem : tl ∈ (j0 :: ids0) := by
      obtain ⟨hne, heq⟩ := List.mem_getLast?_eq_getLast (l := j0 :: ids0)
        (x := tl) (by rw [hlast2]; rfl)
      rw [heq]
      exact List.getLast_mem hne
    have hitl : i0 ≠ tl := fun hc => hi0 (hc ▸ htlmem)
    have hinid : i0 ≠ nid :=
      fun hc => hfresh (hc ▸ mem_keysOf_of_alookup hlk)
    have hjnid : j0 ≠ nid :=
      fun hc => hfresh (hc ▸ mem_keysOf_of_alookup hlkj)
    have hlk1 : lookupNode (setNext (insertNode h nid
        { payload := p, next := none }) tl (some nid)) i0 = some n0 :=
      (appendHeap_lookup_other hitl hinid).trans hlk
    obtain ⟨nj2, hlkj2, hpay⟩ : ∃ nj2,
        lookupNode (setNext (insertNode h nid
          { payload := p, next := none }) tl (some nid)) j0 = some nj2 ∧
        nj2.payload = nj0.payload := by
      by_cases htlj : tl = j0
      · subst htlj
        exact ⟨{ nj0 with next := some nid },
          appendHeap_lookup_tail hjnid hlkj, rfl⟩
      · exact ⟨nj0,
          (appendHeap_lookup_other (fun hc => htlj hc.symm) hjnid).trans hlkj,
          rfl⟩
    have hseg2 := ih hlast2 hnd2 hfresh
    have hres := Seg.cons hlk1 hnx hlkj2 hseg2
    rw [hpay] at hres
    exact hres

theorem chainFrom_complete {h : List (Nat × Node T)} {i : Nat}
    {ids : List Nat} {ps : List (Payload T)} (hs : Seg h i ids ps) :
    ∀ f, (i :: ids).length ≤ f → chainFrom h f i = some (i :: ids) := by
  induction hs with
  | nil hlk hnx =>
    intro f hf
    cases f with
    | zero => simp at hf
    | succ f2 => simp [chainFrom, hlk, hnx]
  | cons hlk hnx hlkj hrest ih =>
    intro f hf
    rename_i i0 n0 j0 nj0 ids0 ps0
    cases f with
    | zero => simp at hf
    | succ f2 =>
      have hf2 : (j0 :: ids0).length ≤ f2 := by
        simp only [List.length_cons] at hf ⊢
        omega
      simp [chainFrom, hlk, hnx, ih f2 hf2]

theorem reachIds_eq {s : QState T} {ids : List Nat} {ps : List (Payload T)}
    (hi : InvAt s ids ps) : reachIds s = s.head :: ids := by
  have hsub : ∀ j ∈ s.head :: ids, j ∈ keysOf s.heap := seg_mem_keys hi.seg
  have hlen : (s.head :: ids).length ≤ s.heap.length := by
    have h1 := (List.subperm_of_subset hi.nodup hsub).length_le
    simpa [keysOf] using h1
  unfold reachIds
  rw [chainFrom_complete hi.seg _ hlen]
  rfl

theorem queuePayloads_eq {s : QState T} {ids : List Nat}
    {ps : List (Payload T)} (hi : InvAt s ids ps) : queuePayloads s = ps := by
  unfold queuePayloads
  rw [reachIds_eq hi]
  simpa using seg_payloadsOf hi.seg

/-! Inversion lemmas, payload mode lemmas, and loop unrolling lemmas. -/

theorem seg_cons_inv {h : List (Nat × Node T)} {i : Nat} {ids : List Nat}
    {q : Payload T} {rest : List (Payload T)}
    (hs : Seg h i ids (q :: rest)) :
    ∃ n j nj ids2, ids = j :: ids2 ∧ lookupNode h i = some n ∧
      n.next = some j ∧ lookupNode h j = some nj ∧ nj.payload = q ∧
      Seg h j ids2 rest := by
  cases hs with
  | cons hlk hnx hlkj hrest =>
    exact ⟨_, _, _, _, rfl, hlk, hnx, hlkj, rfl, hrest⟩

theorem seg_nil_inv {h : List (Nat × Node T)} {i : Nat}
    {ps : List (Payload T)} (hs : Seg h i [] ps) :
    ps = [] ∧ ∃ n, lookupNode h i = some n ∧ n.next = none := by
  cases hs with
  | nil hlk hnx => exact ⟨rfl, _, hlk, hnx⟩

theorem seg_ps_nil {h : List (Nat × Node T)} {i : Nat} {ids : List Nat}
    (hs : Seg h i ids []) : ids = [] := by
  cases hs with
  | nil hlk hnx => rfl

theorem uniform_tail {q : Payload T} {ps : List (Payload T)}
    (hu : Uniform (q :: ps)) : Uniform ps := by
  rcases hu with hu | hu
  · exact Or.inl (fun p hp => hu p (List.mem_cons_of_mem _ hp))
  · exact Or.inr (fun p hp => hu p (List.mem_cons_of_mem _ hp))

theorem is_data_eq_isDataP (n : Node T) : n.is_data = n.payload.isDataP := by
  cases hp : n.payload <;> simp [Node.is_data, Payload.isDataP, hp]

theorem blocked_of_not_dataP {p : Payload T} (h : p.isDataP = false) :
    ∃ b, p = Payload.Blocked b := by
  cases p with
  | Data t => simp [Payload.isDataP] at h
  | Blocked b => exact ⟨b, rfl⟩

theorem blockedRefs_data_cons (t : T) (ps : List (Payload T)) :
    blockedRefs (Payload.Data t :: ps) = blockedRefs ps := rfl

theorem blockedRefs_blocked_cons (b : Nat) (ps : List (Payload T)) :
    blockedRefs (Payload.Blocked b :: ps) = b :: blockedRefs ps := rfl

theorem blockedRefs_append (ps qs : List (Payload T)) :
    blockedRefs (ps ++ qs) = blockedRefs ps ++ blockedRefs qs := by
  unfold blockedRefs
  rw [List.filterMap_append]

theorem dataVals_append (ps qs : List (Payload T)) :
    dataVals (ps ++ qs) = dataVals ps ++ dataVals qs := by
  unfold dataVals
  rw [List.filterMap_append]

theorem push_eq_of_attempt_ok {s s2 : QState T} {t : T}
    (h : pushAttempt s t = Except.ok s2) : push s t = s2 := by
  show pushLoop (s.heap.length + 1 + 1) s t = s2
  simp [pushLoop, h]

theorem popLoop_of_ok {s : QState T} {sid : Nat} {r : Option T × QState T}
    (h : popAttempt s sid = Except.ok r) (f : Nat) :
    popLoop (f + 1) s sid = r := by
  simp [popLoop, h]

theorem push_internal_link {s : QState T} {onto : Nat} {o : Node T}
    (p : Payload T) (hlk : lookupNode s.heap onto = some o)
    (hnx : o.next = none) :
    push_internal s onto p =
      (true, casTail
        { s with
          heap := setNext (insertNode s.heap s.nextId
                    { payload := p, next := none }) onto (some s.nextId)
          nextId := s.nextId + 1 } onto s.nextId) := by
  simp [push_internal, hlk, hnx]

theorem pop_internal_no_data {s : QState T} (h : frontDataVal s = none) :
    pop_internal s = Except.ok (none, s) := by
  rcases h1 : lookupNode s.heap s.head with _ | hn
  · simp [pop_internal, h1]
  · rcases h2 : hn.next with _ | nid
    · simp [pop_internal, h1, h2]
    · rcases h3 : lookupNode s.heap nid with _ | nxt
      · simp [pop_internal, h1, h2, h3]
      · rcases h4 : nxt.payload with t | b
        · exact absurd h (by simp [frontDataVal, frontPayload, payloadAt,
            h1, h2, h3, h4])
        · simp [pop_internal, h1, h2, h3, h4]

theorem frontPayload_of_invAt {s : QState T} {ids : List Nat}
    {ps : List (Payload T)} (hi : InvAt s ids ps) :
    frontPayload s = ps.head? := by
  cases ps with
  | nil =>
    have hids := seg_ps_nil hi.seg
    obtain ⟨-, n, hlk, hnx⟩ := seg_nil_inv (hids ▸ hi.seg)
    simp [frontPayload, hlk, hnx]
  | cons q rest =>
    obtain ⟨n, j, nj, ids2, hids, hlk, hnx, hlkj, hpay, hrest⟩ :=
      seg_cons_inv hi.seg
    simp [frontPayload, hlk, hnx, payloadAt, hlkj, hpay]

theorem frontDataVal_none_of_allBlocked {s : QState T} {ids : List Nat}
    {ps : List (Payload T)} (hi : InvAt s ids ps) (hall : allBlocked ps) :
    frontDataVal s = none := by
  cases ps with
  | nil => simp [frontDataVal, frontPayload_of_invAt hi]
  | cons q rest =>
    obtain ⟨b, hb⟩ := blocked_of_not_dataP (hall q (by simp))
    simp [frontDataVal, frontPayload_of_invAt hi, hb]

/-! Step lemmas: how each operation transforms the abstract payload list. -/

theorem pop_front_data {s : QState T} {ids : List Nat} {t : T}
    {rest : List (Payload T)}
    (hi : InvAt s ids (Payload.Data t :: rest)) :
    ∃ j ids2, ids = j :: ids2 ∧
      pop_internal s = Except.ok (some t, { s with head := j }) ∧
      InvAt { s with head := j } ids2 rest := by
  obtain ⟨n, j, nj, ids2, hids, hlk, hnx, hlkj, hpay, hrest⟩ :=
    seg_cons_inv hi.seg
  refine ⟨j, ids2, hids, by simp [pop_internal, hlk, hnx, hlkj, hpay], ?_⟩
  refine ⟨hrest, ?_, ?_, hi.keys_lt, hi.sig_lt, uniform_tail hi.uni, ?_, ?_⟩
  · have hl := hi.tail_last
    rw [hids, List.getLast?_cons_cons] at hl
    exact hl
  · have hn := hi.nodup
    rw [hids] at hn
    exact hn.of_cons
  · intro b hb
    exact hi.bl_wait b (by rw [blockedRefs_data_cons]; exact hb)
  · have hbn := hi.bl_nodup
    rw [blockedRefs_data_cons] at hbn
    exact hbn

theorem try_pop_front_data_step {s : QState T} {ids : List Nat} {t : T}
    {rest : List (Payload T)}
    (hi : InvAt s ids (Payload.Data t :: rest)) :
    ∃ j ids2, ids = j :: ids2 ∧ try_pop s = (some t, { s with head := j }) ∧
      InvAt { s with head := j } ids2 rest := by
  obtain ⟨j, ids2, hids, hpi, hinv⟩ := pop_front_data hi
  exact ⟨j, ids2, hids, by simp [try_pop, hpi], hinv⟩

theorem pop_step_front_data_step {s : QState T} {ids : List Nat} {t : T}
    {rest : List (Payload T)}
    (hi : InvAt s ids (Payload.Data t :: rest)) :
    ∃ j ids2, ids = j :: ids2 ∧ pop_step s = (some t, { s with head := j }) ∧
      InvAt { s with head := j } ids2 rest := by
  obtain ⟨j, ids2, hids, hpi, hinv⟩ := pop_front_data hi
  exact ⟨j, ids2, hids, by simp [pop_step, hpi], hinv⟩

theorem try_pop_no_data {s : QState T} (h : frontDataVal s = none) :
    try_pop s = (none, s) := by
  simp [try_pop, pop_internal_no_data h]

theorem allBlocked_of_head_blocked {b : Nat} {rest : List (Payload T)}
    (hu : Uniform (Payload.Blocked b :: rest)) :
    allBlocked (Payload.Blocked b :: rest) := by
  rcases hu with hu | hu
  · exact absurd (hu (Payload.Blocked b) (by simp)) (by simp [Payload.isDataP])
  · exact hu

theorem push_data_step {s : QState T} {ids : List Nat} {ps : List (Payload T)}
    (hi : InvAt s ids ps) (hall : allData ps) (t : T) :
    ∃ s2, push s t = s2 ∧
      InvAt s2 (ids ++ [s.nextId]) (ps ++ [Payload.Data t]) ∧
      s2.sigs = s.sigs ∧ s2.sigId = s.sigId ∧ s2.head = s.head := by
  obtain ⟨tl, n, hlast, hlkt, hnxt, h4, h5⟩ := seg_last_info hi.seg
  have htl : tl = s.tail := by
    have hl := hi.tail_last
    rw [hlast] at hl
    exact Option.some.inj hl
  subst htl
  have hcond : n.is_data = true ∨ s.head = s.tail := by
    cases hids0 : ids with
    | nil => exact Or.inr (h4 hids0).symm
    | cons j rest2 =>
      have hne : ids ≠ [] := by simp [hids0]
      have hpne : ps ≠ [] := by
        have hlen := seg_length hi.seg
        intro hc
        rw [hids0, hc] at hlen
        simp at hlen
      have h5a := h5 hne
      rw [List.getLast?_eq_getLast_of_ne_nil hpne] at h5a
      have hq := hall (ps.getLast hpne) (List.getLast_mem hpne)
      refine Or.inl ?_
      rw [is_data_eq_isDataP, Option.some.inj h5a, hq]
  have hfresh : s.nextId ∉ keysOf s.heap :=
    fun hmem => absurd (hi.keys_lt _ hmem) (lt_irrefl _)
  have hchainmem : s.nextId ∉ (s.head :: ids) := fun hmem =>
    absurd (hi.keys_lt _ (seg_mem_keys hi.seg _ hmem)) (lt_irrefl _)
  have hlink := push_internal_link (Payload.Data t) hlkt hnxt
  have hatt : pushAttempt s t = Except.ok
      { s with
        heap := setNext (insertNode s.heap s.nextId
          { payload := Payload.Data t, next := none }) s.tail (some s.nextId)
        nextId := s.nextId + 1
        tail := s.nextId } := by
    simp only [pushAttempt, hlkt]
    rw [if_pos hcond, hlink]
    simp [casTail]
  refine ⟨_, push_eq_of_attempt_ok hatt, ?_, rfl, rfl, rfl⟩
  refine ⟨?_, ?_, ?_, ?_, hi.sig_lt, ?_, ?_, ?_⟩
  · exact seg_append (Payload.Data t) hi.seg hi.tail_last hi.nodup hfresh
  · show ((s.head :: ids) ++ [s.nextId]).getLast? = some s.nextId
    rw [List.getLast?_append_cons]
    rfl
  · show ((s.head :: ids) ++ [s.nextId]).Nodup
    rw [List.nodup_append]
    refine ⟨hi.nodup, List.nodup_singleton _, ?_⟩
    intro a ha hb
    rw [List.mem_singleton] at hb
    subst hb
    exact hchainmem ha
  · intro k hk
    show k < s.nextId + 1
    rw [setNext, keysOf_amodify] at hk
    simp only [insertNode, keysOf, List.map_cons, List.mem_cons] at hk
    rcases hk with hk | hk
    · omega
    · have := hi.keys_lt k hk
      omega
  · refine Or.inl ?_
    intro p hp
    rcases List.mem_append.mp hp with hp | hp
    · exact hall p hp
    · rw [List.mem_singleton] at hp
      subst hp
      rfl
  · intro b hb
    rw [blockedRefs_append] at hb
    simp only [blockedRefs, List.filterMap_nil, List.filterMap_cons,
      List.append_nil] at hb
    exact hi.bl_wait b hb
  · rw [blockedRefs_append]
    simp only [blockedRefs, List.filterMap_nil, List.filterMap_cons,
      List.append_nil]
    exact hi.bl_nodup

theorem push_blocked_step {s : QState T} {ids : List Nat} {b : Nat}
    {rest : List (Payload T)}
    (hi : InvAt s ids (Payload.Blocked b :: rest)) (t : T) :
    ∃ j ids2, ids = j :: ids2 ∧
      push s t = deliver { s with head := j } b t ∧
      InvAt (deliver { s with head := j } b t) ids2 rest ∧
      lookupSig s.sigs b = some { data := none, ready := false } := by
  have hall := allBlocked_of_head_blocked hi.uni
  obtain ⟨n, j, nj, ids2, hids, hlk, hnx, hlkj, hpay, hrest⟩ :=
    seg_cons_inv hi.seg
  obtain ⟨tl, nt, hlast, hlkt, hnxt, h4, h5⟩ := seg_last_info hi.seg
  have htl : tl = s.tail := by
    have hl := hi.tail_last
    rw [hlast] at hl
    exact Option.some.inj hl
  subst htl
  have hne : ids ≠ [] := by simp [hids]
  have hpne : (Payload.Blocked b :: rest) ≠ [] := by simp
  have hdata : nt.is_data = false := by
    have h5a := h5 hne
    rw [List.getLast?_eq_getLast_of_ne_nil hpne] at h5a
    have hq := hall _ (List.getLast_mem hpne)
    rw [is_data_eq_isDataP, Option.some.inj h5a, hq]
  have htailmem : s.tail ∈ ids := by
    have hl := hi.tail_last
    rw [hids, List.getLast?_cons_cons] at hl
    obtain ⟨hne2, heq⟩ := List.mem_getLast?_eq_getLast (l := j :: ids2)
      (x := s.tail) (by rw [hl]; rfl)
    rw [hids, heq]
    exact List.getLast_mem hne2
  have hheadnotin : s.head ∉ ids := by
    have := List.nodup_cons.mp hi.nodup
    exact this.1
  have hht : ¬ s.head = s.tail := fun hc => hheadnotin (hc ▸ htailmem)
  have hcond : ¬ (nt.is_data = true ∨ s.head = s.tail) := by
    rw [hdata]
    simp [hht]
  have hatt : pushAttempt s t = Except.ok (deliver { s with head := j } b t) := by
    simp only [pushAttempt, hlkt]
    rw [if_neg hcond]
    simp [hlk, hnx, hlkj, hpay]
  refine ⟨j, ids2, hids, push_eq_of_attempt_ok hatt, ?_,
    hi.bl_wait b (by rw [blockedRefs_blocked_cons]; simp)⟩
  have hbrefs := hi.bl_nodup
  rw [blockedRefs_blocked_cons] at hbrefs
  have hbnotin : b ∉ blockedRefs rest := (List.nodup_cons.mp hbrefs).1
  refine ⟨hrest, ?_, ?_, hi.keys_lt, ?_, uniform_tail hi.uni, ?_, ?_⟩
  · have hl := hi.tail_last
    rw [hids, List.getLast?_cons_cons] at hl
    exact hl
  · have hn := hi.nodup
    rw [hids] at hn
    exact hn.of_cons
  · intro k hk
    show k < s.sigId
    rw [deliver] at hk
    simp only [setSig, keysOf_amodify] at hk
    exact hi.sig_lt k hk
  · intro b2 hb2
    have hne2 : ¬ b = b2 := fun hc => hbnotin (hc ▸ hb2)
    show lookupSig (setSig s.sigs b { data := some t, ready := true }) b2 = _
    rw [setSig, lookupSig, alookup_amodify, if_neg hne2]
    exact hi.bl_wait b2 (List.mem_cons_of_mem _ hb2)
  · exact (List.nodup_cons.mp hbrefs).2

theorem pop_park_step {s : QState T} {ids : List Nat} {ps : List (Payload T)}
    (hi : InvAt s ids ps) (hall : allBlocked ps) :
    ∃ s2, pop_step s = (none, s2) ∧
      InvAt s2 (ids ++ [s.nextId]) (ps ++ [Payload.Blocked s.sigId]) ∧
      s2.sigs = insertSig s.sigs s.sigId { data := none, ready := false } ∧
      s2.sigId = s.sigId + 1 ∧ s2.head = s.head := by
  have hfront := frontDataVal_none_of_allBlocked hi hall
  have hpi := pop_internal_no_data hfront
  obtain ⟨tl, nt, hlast, hlkt, hnxt, h4, h5⟩ := seg_last_info hi.seg
  have htl : tl = s.tail := by
    have hl := hi.tail_last
    rw [hlast] at hl
    exact Option.some.inj hl
  subst htl
  have hfresh : s.nextId ∉ keysOf s.heap :=
    fun hmem => absurd (hi.keys_lt _ hmem) (lt_irrefl _)
  have hchainmem : s.nextId ∉ (s.head :: ids) := fun hmem =>
    absurd (hi.keys_lt _ (seg_mem_keys hi.seg _ hmem)) (lt_irrefl _)
  have hrefs_lt : ∀ a ∈ blockedRefs ps, a < s.sigId := fun a ha =>
    hi.sig_lt a (mem_keysOf_of_alookup (hi.bl_wait a ha))
  have hcond : ¬ (nt.is_data = true ∧ s.tail ≠ s.head) := by
    cases hids0 : ids with
    | nil =>
      have hth : s.tail = s.head := by
        rw [h4 hids0]
      intro hc
      exact hc.2 hth
    | cons j rest2 =>
      have hne : ids ≠ [] := by simp [hids0]
      have hpne : ps ≠ [] := by
        have hlen := seg_length hi.seg
        intro hc
        rw [hids0, hc] at hlen
        simp at hlen
      have hdata : nt.is_data = false := by
        have h5a := h5 hne
        rw [List.getLast?_eq_getLast_of_ne_nil hpne] at h5a
        have hq := hall _ (List.getLast_mem hpne)
        rw [is_data_eq_isDataP, Option.some.inj h5a, hq]
      intro hc
      rw [hdata] at hc
      exact Bool.false_ne_true hc.1
  have hpi1 : pop_internal
      { s with
        sigs := insertSig s.sigs s.sigId { data := none, ready := false }
        sigId := s.sigId + 1 } =
      Except.ok (none,
        { s with
          sigs := insertSig s.sigs s.sigId { data := none, ready := false }
          sigId := s.sigId + 1 }) :=
    pop_internal_no_data hfront
  have hatt : popAttempt
      { s with
        sigs := insertSig s.sigs s.sigId { data := none, ready := false }
        sigId := s.sigId + 1 } s.sigId =
      Except.ok (none,
        { s with
          heap := setNext (insertNode s.heap s.nextId
            { payload := Payload.Blocked s.sigId, next := none }) s.tail
            (some s.nextId)
          tail := s.nextId
          nextId := s.nextId + 1
          sigs := insertSig s.sigs s.sigId { data := none, ready := false }
          sigId := s.sigId + 1 }) := by
    simp only [popAttempt, hpi1]
    simp only [hlkt]
    rw [if_neg hcond]
    have hlkt1 : lookupNode (QState.heap
        { s with
          sigs := insertSig s.sigs s.sigId { data := none, ready := false }
          sigId := s.sigId + 1 }) s.tail = some nt := hlkt
    rw [push_internal_link (Payload.Blocked s.sigId) hlkt1 hnxt]
    simp [casTail]
  refine ⟨{ s with
      heap := setNext (insertNode s.heap s.nextId
        { payload := Payload.Blocked s.sigId, next := none }) s.tail
        (some s.nextId)
      tail := s.nextId
      nextId := s.nextId + 1
      sigs := insertSig s.sigs s.sigId { data := none, ready := false }
      sigId := s.sigId + 1 }, ?_, ?_, rfl, rfl, rfl⟩
  · show (match pop_internal s with
      | Except.ok (some t, s1) => (some t, s1)
      | _ => _) = _
    rw [hpi]
    show popLoop (s.heap.length + 2) _ s.sigId = _
    exact popLoop_of_ok hatt (s.heap.length + 1)
  · refine ⟨?_, ?_, ?_, ?_, ?_, ?_, ?_, ?_⟩
    · exact seg_append (Payload.Blocked s.sigId) hi.seg hi.tail_last
        hi.nodup hfresh
    · show ((s.head :: ids) ++ [s.nextId]).getLast? = some s.nextId
      rw [List.getLast?_append_cons]
      rfl
    · show ((s.head :: ids) ++ [s.nextId]).Nodup
      rw [List.nodup_append]
      refine ⟨hi.nodup, List.nodup_singleton _, ?_⟩
      intro a ha hb
      rw [List.mem_singleton] at hb
      subst hb
      exact hchainmem ha
    · intro k hk
      show k < s.nextId + 1
      rw [setNext, keysOf_amodify] at hk
      simp only [insertNode, keysOf, List.map_cons, List.mem_cons] at hk
      rcases hk with hk | hk
      · omega
      · have := hi.keys_lt k hk
        omega
    · intro k hk
      show k < s.sigId + 1
      simp only [insertSig, keysOf, List.map_cons, List.mem_cons] at hk
      rcases hk with hk | hk
      · omega
      · have := hi.sig_lt k hk
        omega
    · refine Or.inr ?_
      intro p hp
      rcases List.mem_append.mp hp with hp | hp
      · exact hall p hp
      · rw [List.mem_singleton] at hp
        subst hp
        rfl
    · intro b2 hb2
      have hbr : blockedRefs (ps ++ [Payload.Blocked s.sigId]) =
          blockedRefs ps ++ [s.sigId] := by
        rw [blockedRefs_append, blockedRefs_blocked_cons]
        rfl
      rw [hbr] at hb2
      show lookupSig (insertSig s.sigs s.sigId
        { data := none, ready := false }) b2 = _
      rcases List.mem_append.mp hb2 with hb2 | hb2
      · have hne2 : ¬ s.sigId = b2 :=
          fun hc => absurd (hc ▸ hrefs_lt b2 hb2) (lt_irrefl _)
        rw [insertSig, lookupSig, alookup_cons, if_neg hne2]
        exact hi.bl_wait b2 hb2
      · rw [List.mem_singleton] at hb2
        subst hb2
        rw [insertSig, lookupSig, alookup_cons, if_pos rfl]
    · have hbr : blockedRefs (ps ++ [Payload.Blocked s.sigId]) =
          blockedRefs ps ++ [s.sigId] := by
        rw [blockedRefs_append, blockedRefs_blocked_cons]
        rfl
      rw [hbr, List.nodup_append]
      refine ⟨hi.bl_nodup, List.nodup_singleton _, ?_⟩
      intro a ha hb
      rw [List.mem_singleton] at hb
      subst hb
      exact absurd (hrefs_lt _ ha) (lt_irrefl _)

/-! The invariant holds in every reachable state. -/

theorem invAt_new (T : Type) [Inhabited T] :
    InvAt (new : QState T) [] [] := by
  refine ⟨Seg.nil rfl rfl, rfl, ?_, ?_, ?_, Or.inl ?_, ?_, ?_⟩
  · simp
  · intro k hk
    simp [new, keysOf] at hk
    simp [new, hk]
  · intro k hk
    simp [new, keysOf] at hk
  · intro p hp
    simp at hp
  · intro b hb
    simp [blockedRefs] at hb
  · simp [blockedRefs]

theorem allData_nil : allData ([] : List (Payload T)) := by
  intro p hp
  simp at hp

theorem step_inv [Inhabited T] {s : QState T} (h : Inv s) (op : Op T) :
    Inv (stepState s op) := by
  obtain ⟨ids, ps, hi⟩ := h
  cases op with
  | pushOp t =>
    show Inv (push s t)
    rcases hi.uni with hall | hall
    · obtain ⟨s2, hps, hinv, -⟩ := push_data_step hi hall t
      rw [hps]
      exact ⟨_, _, hinv⟩
    · cases hps0 : ps with
      | nil =>
        subst hps0
        obtain ⟨s2, hps, hinv, -⟩ := push_data_step hi allData_nil t
        rw [hps]
        exact ⟨_, _, hinv⟩
      | cons q rest =>
        obtain ⟨b, hb⟩ := blocked_of_not_dataP (hall q (by rw [hps0]; simp))
        subst hps0 hb
        obtain ⟨j, ids2, -, hps, hinv, -⟩ := push_blocked_step hi t
        rw [hps]
        exact ⟨_, _, hinv⟩
  | tryPopOp =>
    show Inv (try_pop s).2
    cases hps0 : ps with
    | nil =>
      subst hps0
      have hfd : frontDataVal s = none := by
        simp [frontDataVal, frontPayload_of_invAt hi]
      rw [try_pop_no_data hfd]
      exact ⟨_, _, hi⟩
    | cons q rest =>
      cases q with
      | Data t =>
        subst hps0
        obtain ⟨j, ids2, -, hps, hinv⟩ := try_pop_front_data_step hi
        rw [hps]
        exact ⟨_, _, hinv⟩
      | Blocked b =>
        subst hps0
        have hfd : frontDataVal s = none := by
          simp [frontDataVal, frontPayload_of_invAt hi]
        rw [try_pop_no_data hfd]
        exact ⟨_, _, hi⟩
  | popOp =>
    show Inv (pop_step s).2
    cases hps0 : ps with
    | nil =>
      subst hps0
      obtain ⟨s2, hps, hinv, -⟩ := pop_park_step hi (by intro p hp; simp at hp)
      rw [hps]
      exact ⟨_, _, hinv⟩
    | cons q rest =>
      cases q with
      | Data t =>
        subst hps0
        obtain ⟨j, ids2, -, hps, hinv⟩ := pop_step_front_data_step hi
        rw [hps]
        exact ⟨_, _, hinv⟩
      | Blocked b =>
        subst hps0
        obtain ⟨s2, hps, hinv, -⟩ :=
          pop_park_step hi (allBlocked_of_head_blocked hi.uni)
        rw [hps]
        exact ⟨_, _, hinv⟩
  | isEmptyOp => exact ⟨_, _, hi⟩

theorem reach_inv [Inhabited T] {s : QState T} (h : Reach s) : Inv s := by
  induction h with
  | init => exact ⟨[], [], invAt_new T⟩
  | step hr op ih => exact step_inv ih op

/-! Mode preservation across a single step. -/

theorem step_allData [Inhabited T] {s : QState T} {ids : List Nat}
    {ps : List (Payload T)} (hi : InvAt s ids ps) (hall : allData ps)
    (op : Op T) (hop : op = Op.popOp → ps ≠ []) :
    ∃ ids2 ps2, InvAt (stepState s op) ids2 ps2 ∧ allData ps2 := by
  cases op with
  | pushOp t =>
    show ∃ ids2 ps2, InvAt (push s t) ids2 ps2 ∧ allData ps2
    obtain ⟨s2, hps, hinv, -⟩ := push_data_step hi hall t
    rw [hps]
    refine ⟨_, _, hinv, ?_⟩
    intro p hp
    rcases List.mem_append.mp hp with hp | hp
    · exact hall p hp
    · rw [List.mem_singleton] at hp
      subst hp
      rfl
  | tryPopOp =>
    show ∃ ids2 ps2, InvAt (try_pop s).2 ids2 ps2 ∧ allData ps2
    cases hps0 : ps with
    | nil =>
      subst hps0
      have hfd : frontDataVal s = none := by
        simp [frontDataVal, frontPayload_of_invAt hi]
      rw [try_pop_no_data hfd]
      exact ⟨_, _, hi, hall⟩
    | cons q rest =>
      have hq := hall q (by rw [hps0]; simp)
      cases q with
      | Blocked b => simp [Payload.isDataP] at hq
      | Data t =>
        subst hps0
        obtain ⟨j, ids2, -, hps, hinv⟩ := try_pop_front_data_step hi
        rw [hps]
        exact ⟨_, _, hinv, fun p hp => hall p (List.mem_cons_of_mem _ hp)⟩
  | popOp =>
    show ∃ ids2 ps2, InvAt (pop_step s).2 ids2 ps2 ∧ allData ps2
    cases hps0 : ps with
    | nil => exact absurd hps0 (hop rfl)
    | cons q rest =>
      have hq := hall q (by rw [hps0]; simp)
      cases q with
      | Blocked b => simp [Payload.isDataP] at hq
      | Data t =>
        subst hps0
        obtain ⟨j, ids2, -, hps, hinv⟩ := pop_step_front_data_step hi
        rw [hps]
        exact ⟨_, _, hinv, fun p hp => hall p (List.mem_cons_of_mem _ hp)⟩
  | isEmptyOp => exact ⟨_, _, hi, hall⟩

theorem step_allBlocked [Inhabited T] {s : QState T} {ids : List Nat}
    {ps : List (Payload T)} (hi : InvAt s ids ps) (hall : allBlocked ps)
    (op : Op T) (hop : ∀ t2, op = Op.pushOp t2 → ps ≠ []) :
    ∃ ids2 ps2, InvAt (stepState s op) ids2 ps2 ∧ allBlocked ps2 := by
  cases op with
  | pushOp t2 =>
    show ∃ ids2 ps2, InvAt (push s t2) ids2 ps2 ∧ allBlocked ps2
    cases hps0 : ps with
    | nil => exact absurd hps0 (hop t2 rfl)
    | cons q rest =>
      obtain ⟨b, hb⟩ := blocked_of_not_dataP (hall q (by rw [hps0]; simp))
      subst hps0 hb
      obtain ⟨j, ids2, -, hps, hinv, -⟩ := push_blocked_step hi t2
      rw [hps]
      exact ⟨_, _, hinv, fun p hp => hall p (List.mem_cons_of_mem _ hp)⟩
  | tryPopOp =>
    show ∃ ids2 ps2, InvAt (try_pop s).2 ids2 ps2 ∧ allBlocked ps2
    have hfd := frontDataVal_none_of_allBlocked hi hall
    rw [try_pop_no_data hfd]
    exact ⟨_, _, hi, hall⟩
  | popOp =>
    show ∃ ids2 ps2, InvAt (pop_step s).2 ids2 ps2 ∧ allBlocked ps2
    obtain ⟨s2, hps, hinv, -⟩ := pop_park_step hi hall
    rw [hps]
    refine ⟨_, _, hinv, ?_⟩
    intro p hp
    rcases List.mem_append.mp hp with hp | hp
    · exact hall p hp
    · rw [List.mem_singleton] at hp
      subst hp
      rfl
  | isEmptyOp => exact ⟨_, _, hi, hall⟩

theorem uniformB_of_uniform {ps : List (Payload T)} (h : Uniform ps) :
    uniformB ps = true := by
  unfold uniformB
  rcases h with h | h
  · have hx : ps.all Payload.isDataP = true := List.all_eq_true.mpr h
    rw [hx, Bool.true_or]
  · have hx : (ps.all fun p => !p.isDataP) = true :=
      List.all_eq_true.mpr (fun p hp => by rw [h p hp]; rfl)
    rw [hx, Bool.or_true]

theorem hasBlockedB_eq_false_of_allData {s : QState T} {ids : List Nat}
    {ps : List (Payload T)} (hi : InvAt s ids ps) (hall : allData ps) :
    hasBlockedB s = false := by
  unfold hasBlockedB
  rw [queuePayloads_eq hi]
  cases hb : ps.any (fun p => !p.isDataP) with
  | false => rfl
  | true =>
    obtain ⟨p, hp, hpp⟩ := List.any_eq_true.mp hb
    rw [hall p hp] at hpp
    simp at hpp

theorem hasDataB_eq_false_of_allBlocked {s : QState T} {ids : List Nat}
    {ps : List (Payload T)} (hi : InvAt s ids ps) (hall : allBlocked ps) :
    hasDataB s = false := by
  unfold hasDataB
  rw [queuePayloads_eq hi]
  cases hb : ps.any Payload.isDataP with
  | false => rfl
  | true =>
    obtain ⟨p, hp, hpp⟩ := List.any_eq_true.mp hb
    rw [hall p hp] at hpp
    simp at hpp

/-- Claim C3: mode uniformity is an invariant of every reachable state (the
non-sentinel reachable payloads are all data or all blocked), and no single
operation ever steps from a state holding data nodes to one holding blocked
nodes or vice versa: the mode can flip only through an intermediate state in
which only the sentinel remains. -/
theorem claim3_mode_uniformity [Inhabited T] (s : QState T) (h : Reach s) :
    uniformB (queuePayloads s) = true ∧
    ∀ op : Op T,
      (hasDataB s = true → hasBlockedB (stepState s op) = false) ∧
      (hasBlockedB s = true → hasDataB (stepState s op) = false) := by
  obtain ⟨ids, ps, hi⟩ := reach_inv h
  constructor
  · rw [queuePayloads_eq hi]
    exact uniformB_of_uniform hi.uni
  · intro op
    constructor
    · intro hd
      unfold hasDataB at hd
      rw [queuePayloads_eq hi] at hd
      obtain ⟨p0, hp0, hp0d⟩ := List.any_eq_true.mp hd
      have hall : allData ps := by
        rcases hi.uni with h1 | h1
        · exact h1
        · rw [h1 p0 hp0] at hp0d
          cases hp0d
      have hne : ps ≠ [] := fun hc => by subst hc; simp at hp0
      obtain ⟨ids2, ps2, hinv2, hall2⟩ := step_allData hi hall op (fun _ => hne)
      exact hasBlockedB_eq_false_of_allData hinv2 hall2
    · intro hb
      unfold hasBlockedB at hb
      rw [queuePayloads_eq hi] at hb
      obtain ⟨p0, hp0, hp0d⟩ := List.any_eq_true.mp hb
      have hall : allBlocked ps := by
        rcases hi.uni with h1 | h1
        · rw [h1 p0 hp0] at hp0d
          simp at hp0d
        · exact h1
      have hne : ps ≠ [] := fun hc => by subst hc; simp at hp0
      obtain ⟨ids2, ps2, hinv2, hall2⟩ :=
        step_allBlocked hi hall op (fun _ _ => hne)
      exact hasDataB_eq_false_of_allBlocked hinv2 hall2

/-- Claim C3 witness at the fresh queue. -/
theorem claim3_mode_uniformity_witness :
    uniformB (queuePayloads (new : QState Nat)) = true ∧
    ∀ op : Op Nat,
      (hasDataB (new : QState Nat) = true →
        hasBlockedB (stepState (new : QState Nat) op) = false) ∧
      (hasBlockedB (new : QState Nat) = true →
        hasDataB (stepState (new : QState Nat) op) = false) :=
  claim3_mode_uniformity (new : QState Nat) Reach.init

/-- Claim C4: in every reachable state, `is_empty` returns true exactly when
the sentinel `next` pointer is null or the node it references carries a
Blocked payload; in particular a queue holding only blocked waiters is
reported empty. -/
theorem claim4_is_empty_iff [Inhabited T] (s : QState T) (h : Reach s) :
    is_empty s = true ↔
      (headNextOf s = none ∨
        ∃ b, frontPayload s = some (Payload.Blocked b)) := by
  obtain ⟨ids, ps, hi⟩ := reach_inv h
  cases hps0 : ps with
  | nil =>
    subst hps0
    have hids := seg_ps_nil hi.seg
    obtain ⟨-, n, hlk, hnx⟩ := seg_nil_inv (hids ▸ hi.seg)
    have h1 : is_empty s = true := by simp [is_empty, hlk, hnx]
    have h2 : headNextOf s = none := by simp [headNextOf, hlk, hnx]
    rw [h1]
    simp [h2]
  | cons q rest =>
    obtain ⟨n, j, nj, ids2, hids, hlk, hnx, hlkj, hpay, hrest⟩ :=
      seg_cons_inv (hps0 ▸ hi.seg)
    have h2 : headNextOf s = some j := by simp [headNextOf, hlk, hnx]
    have h3 : frontPayload s = some q := by
      rw [frontPayload_of_invAt hi, hps0]
      rfl
    cases q with
    | Data t =>
      have h1 : is_empty s = false := by
        simp [is_empty, hlk, hnx, hlkj, hpay]
      rw [h1]
      simp [h2, h3]
    | Blocked b =>
      have h1 : is_empty s = true := by
        simp [is_empty, hlk, hnx, hlkj, hpay]
      rw [h1]
      simp [h3]

/-- Claim C4 witness at the fresh queue. -/
theorem claim4_is_empty_iff_witness :
    is_empty (new : QState Nat) = true ↔
      (headNextOf (new : QState Nat) = none ∨
        ∃ b, frontPayload (new : QState Nat) = some (Payload.Blocked b)) :=
  claim4_is_empty_iff (new : QState Nat) Reach.init

/-- Claim C7: in every reachable state the head is a valid node, the list
reachable from it is a finite acyclic chain (distinct node ids), the tail is
reachable from the head (it is the last reachable node), and the tail has a
null `next`, so the sequential tail lag is zero, in particular at most one
hop. -/
theorem claim7_structure [Inhabited T] (s : QState T) (h : Reach s) :
    (lookupNode s.heap s.head).isSome = true ∧
    ∃ ids, (s.head :: ids).Nodup ∧
      (s.head :: ids).getLast? = some s.tail ∧
      (∃ ps, Seg s.heap s.head ids ps) ∧
      ∃ tn, lookupNode s.heap s.tail = some tn ∧ tn.next = none := by
  obtain ⟨ids, ps, hi⟩ := reach_inv h
  obtain ⟨n0, hn0⟩ := seg_mem_lookup hi.seg s.head (by simp)
  obtain ⟨tl, nt, hlast, hlkt, hnxt, -, -⟩ := seg_last_info hi.seg
  have htl : tl = s.tail := by
    have hl := hi.tail_last
    rw [hlast] at hl
    exact Option.some.inj hl
  subst htl
  exact ⟨by rw [hn0]; rfl, ids, hi.nodup, hi.tail_last, ⟨ps, hi.seg⟩,
    nt, hlkt, hnxt⟩

/-- Claim C7 witness at the fresh queue. -/
theorem claim7_structure_witness :
    (lookupNode (new : QState Nat).heap (new : QState Nat).head).isSome =
      true ∧
    ∃ ids, ((new : QState Nat).head :: ids).Nodup ∧
      ((new : QState Nat).head :: ids).getLast? =
        some (new : QState Nat).tail ∧
      (∃ ps, Seg (new : QState Nat).heap (new : QState Nat).head ids ps) ∧
      ∃ tn, lookupNode (new : QState Nat).heap (new : QState Nat).tail =
        some tn ∧ tn.next = none :=
  claim7_structure (new : QState Nat) Reach.init

/-! Sequential FIFO behaviour. -/

theorem allData_map_data (L : List T) : allData (L.map Payload.Data) := by
  intro p hp
  simp only [List.mem_map] at hp
  obtain ⟨x, -, hx⟩ := hp
  subst hx
  rfl

theorem pushAll_data {s : QState T} {ids : List Nat} {L : List T}
    (hi : InvAt s ids (L.map Payload.Data)) (l : List T) :
    ∃ ids2, InvAt (pushAll s l) ids2 ((L ++ l).map Payload.Data) := by
  induction l generalizing s ids L with
  | nil =>
    refine ⟨ids, ?_⟩
    simpa using hi
  | cons t rest ih =>
    obtain ⟨s2, hps, hinv, -⟩ := push_data_step hi (allData_map_data L) t
    show ∃ ids2, InvAt (pushAll (push s t) rest) ids2 _
    rw [hps]
    have hinv2 : InvAt s2 (ids ++ [s.nextId]) ((L ++ [t]).map Payload.Data) := by
      rw [List.map_append]
      exact hinv
    obtain ⟨ids3, hinv3⟩ := ih hinv2
    refine ⟨ids3, ?_⟩
    have hl : (L ++ [t]) ++ rest = L ++ t :: rest := by simp
    rw [hl] at hinv3
    exact hinv3

theorem popN_data (L : List T) : ∀ {s : QState T} {ids : List Nat},
    InvAt s ids (L.map Payload.Data) →
    (popN s L.length).1 = L.map some := by
  induction L with
  | nil => intro s ids hi; rfl
  | cons a L2 ih =>
    intro s ids hi
    have hi2 : InvAt s ids (Payload.Data a :: L2.map Payload.Data) := hi
    obtain ⟨j, ids2, hids, htp, hinv⟩ := try_pop_front_data_step hi2
    show ((try_pop s).1 :: (popN (try_pop s).2 L2.length).1) = _
    rw [htp]
    show some a :: (popN { s with head := j } L2.length).1 = _
    rw [ih hinv]
    rfl

/-- Claim C1: sequential per-producer FIFO: pushing any list of values on a
fresh queue and then performing as many `try_pop` calls returns exactly those
values in push order; the list `0, 1, ..., 199` of the seed test is the
special case `l = List.range 200`. -/
theorem claim1_sequential_fifo (T : Type) [Inhabited T] (l : List T) :
    (popN (pushAll (new : QState T) l) l.length).1 = l.map some := by
  have h0 : InvAt (new : QState T) [] (([] : List T).map Payload.Data) :=
    invAt_new T
  obtain ⟨ids2, hinv⟩ := pushAll_data h0 l
  rw [List.nil_append] at hinv
  exact popN_data l hinv

/-! Conservation accounting. -/

theorem dataVals_data_cons (t : T) (ps : List (Payload T)) :
    dataVals (Payload.Data t :: ps) = t :: dataVals ps := rfl

theorem dataVals_blocked_cons (b : Nat) (ps : List (Payload T)) :
    dataVals (Payload.Blocked b :: ps) = dataVals ps := rfl

theorem dataVals_append_data (ps : List (Payload T)) (t : T) :
    dataVals (ps ++ [Payload.Data t]) = dataVals ps ++ [t] := by
  rw [dataVals_append]
  rfl

theorem dataVals_append_blocked (ps : List (Payload T)) (b : Nat) :
    dataVals (ps ++ [Payload.Blocked b]) = dataVals ps := by
  rw [dataVals_append]
  show dataVals ps ++ [] = dataVals ps
  rw [List.append_nil]

theorem readyList_insert_notready (gs : List (Nat × Signal T)) (sid : Nat) :
    readyList (insertSig gs sid { data := none, ready := false }) =
      readyList gs := rfl

theorem readyList_setSig {gs : List (Nat × Signal T)} {b : Nat} (t : T)
    (h : alookup gs b = some { data := none, ready := false }) :
    (readyList (setSig gs b { data := some t, ready := true }) : Multiset T) =
      t ::ₘ (readyList gs : Multiset T) := by
  induction gs with
  | nil => simp [alookup] at h
  | cons hd tlg ih =>
    obtain ⟨j, g⟩ := hd
    by_cases hjb : j = b
    · subst hjb
      rw [alookup_cons, if_pos rfl] at h
      have hg : g = { data := none, ready := false } := Option.some.inj h
      subst hg
      have hset : setSig ((j, { data := none, ready := false }) :: tlg) j
          { data := some t, ready := true } =
          (j, { data := some t, ready := true }) :: tlg := by
        simp [setSig, amodify]
      rw [hset]
      have h1 : readyList ((j, { data := some t, ready := true }) :: tlg) =
          t :: readyList tlg := by
        simp [readyList]
      have h2 : readyList ((j, { data := none, ready := false }) :: tlg) =
          readyList tlg := by
        simp [readyList]
      rw [h1, h2, Multiset.cons_coe]
    · rw [alookup_cons, if_neg hjb] at h
      have hset : setSig ((j, g) :: tlg) b
          { data := some t, ready := true } =
          (j, g) :: setSig tlg b { data := some t, ready := true } := by
        simp [setSig, amodify, hjb]
      rw [hset]
      cases hg : (if g.ready then g.data else none) with
      | none =>
        have h1 : readyList ((j, g) :: setSig tlg b
            { data := some t, ready := true }) =
            readyList (setSig tlg b { data := some t, ready := true }) := by
          simp [readyList, List.filterMap_cons, hg]
        have h2 : readyList ((j, g) :: tlg) = readyList tlg := by
          simp [readyList, List.filterMap_cons, hg]
        rw [h1, h2]
        exact ih h
      | some v =>
        have h1 : readyList ((j, g) :: setSig tlg b
            { data := some t, ready := true }) =
            v :: readyList (setSig tlg b { data := some t, ready := true }) := by
          simp [readyList, List.filterMap_cons, hg]
        have h2 : readyList ((j, g) :: tlg) = v :: readyList tlg := by
          simp [readyList, List.filterMap_cons, hg]
        rw [h1, h2, ← Multiset.cons_coe, ← Multiset.cons_coe, ih h,
          Multiset.cons_swap]

theorem runAcc_conserve [Inhabited T] (ops : List (Op T)) :
    ∀ (s : QState T) (ids : List Nat) (ps : List (Payload T)),
      InvAt s ids ps →
      ∃ ids2 ps2, InvAt (runAcc s ops).1 ids2 ps2 ∧
        ((runAcc s ops).2.1 : Multiset T) + (dataVals ps : Multiset T) +
          (readyList s.sigs : Multiset T) =
        ((runAcc s ops).2.2 : Multiset T) + (dataVals ps2 : Multiset T) +
          (readyList (runAcc s ops).1.sigs : Multiset T) := by
  induction ops with
  | nil =>
    intro s ids ps hi
    exact ⟨ids, ps, hi, rfl⟩
  | cons op rest ih =>
    intro s ids ps hi
    cases op with
    | pushOp t =>
      have hsplit : allData ps ∨
          ∃ b restp, ps = Payload.Blocked b :: restp := by
        rcases hi.uni with h1 | h1
        · exact Or.inl h1
        · cases ps with
          | nil => exact Or.inl allData_nil
          | cons q restp =>
            obtain ⟨b, hb⟩ := blocked_of_not_dataP (h1 q (by simp))
            exact Or.inr ⟨b, restp, by rw [hb]⟩
      rcases hsplit with hall | ⟨b, restp, hps0⟩
      · obtain ⟨s2, hstep, hinv2, hsigs, -, -⟩ := push_data_step hi hall t
        obtain ⟨ids3, ps3, hinv3, heq⟩ := ih s2 _ _ hinv2
        have hrw : runAcc s (Op.pushOp t :: rest) =
            ((runAcc s2 rest).1, t :: (runAcc s2 rest).2.1,
              (runAcc s2 rest).2.2) := by
          have hst : stepState s (Op.pushOp t) = s2 := hstep
          simp [runAcc, hst]
        rw [hrw]
        refine ⟨ids3, ps3, hinv3, ?_⟩
        rw [hsigs] at heq
        have hdv : (dataVals (ps ++ [Payload.Data t]) : Multiset T) =
            (dataVals ps : Multiset T) + {t} := by
          rw [dataVals_append_data, ← Multiset.coe_add]
          rfl
        rw [hdv] at heq
        show (↑(t :: (runAcc s2 rest).2.1) : Multiset T) + _ + _ = _
        rw [← Multiset.cons_coe, ← Multiset.singleton_add]
        calc {t} + (↑(runAcc s2 rest).2.1 : Multiset T) +
              ↑(dataVals ps) + ↑(readyList s.sigs) =
            (↑(runAcc s2 rest).2.1 : Multiset T) +
              ((dataVals ps : Multiset T) + {t}) + ↑(readyList s.sigs) := by
              abel
          _ = _ := heq
      · subst hps0
        obtain ⟨j, ids2, hids, hstep, hinv2, hbw⟩ := push_blocked_step hi t
        obtain ⟨ids3, ps3, hinv3, heq⟩ := ih _ _ _ hinv2
        have hrw : runAcc s (Op.pushOp t :: rest) =
            ((runAcc (deliver { s with head := j } b t) rest).1,
              t :: (runAcc (deliver { s with head := j } b t) rest).2.1,
              (runAcc (deliver { s with head := j } b t) rest).2.2) := by
          have hst : stepState s (Op.pushOp t) =
              deliver { s with head := j } b t := hstep
          simp [runAcc, hst]
        rw [hrw]
        refine ⟨ids3, ps3, hinv3, ?_⟩
        have hrdy : (readyList (deliver { s with head := j } b t).sigs :
            Multiset T) = {t} + (readyList s.sigs : Multiset T) := by
          show (readyList (setSig s.sigs b
            { data := some t, ready := true }) : Multiset T) = _
          rw [readyList_setSig t hbw, Multiset.singleton_add]
        rw [hrdy] at heq
        show (↑(t :: (runAcc (deliver { s with head := j } b t) rest).2.1) :
            Multiset T) + ↑(dataVals (Payload.Blocked b :: restp)) +
            ↑(readyList s.sigs) = _
        rw [← Multiset.cons_coe, ← Multiset.singleton_add,
          dataVals_blocked_cons]
        calc {t} + (↑(runAcc (deliver { s with head := j } b t) rest).2.1 :
              Multiset T) + ↑(dataVals restp) + ↑(readyList s.sigs) =
            (↑(runAcc (deliver { s with head := j } b t) rest).2.1 :
              Multiset T) + ↑(dataVals restp) +
              ({t} + (readyList s.sigs : Multiset T)) := by
              abel
          _ = _ := heq
    | tryPopOp =>
      cases hps0 : ps with
      | nil =>
        subst hps0
        have hfd : frontDataVal s = none := by
          simp [frontDataVal, frontPayload_of_invAt hi]
        have htp := try_pop_no_data hfd
        obtain ⟨ids3, ps3, hinv3, heq⟩ := ih s _ _ hi
        have hrw : runAcc s (Op.tryPopOp :: rest) = runAcc s rest := by
          simp [runAcc, stepState, htp]
        rw [hrw]
        exact ⟨ids3, ps3, hinv3, heq⟩
      | cons q restp =>
        cases q with
        | Data t0 =>
          subst hps0
          obtain ⟨j, ids2, hids, htp, hinv2⟩ := try_pop_front_data_step hi
          obtain ⟨ids3, ps3, hinv3, heq⟩ := ih _ _ _ hinv2
          have hrw : runAcc s (Op.tryPopOp :: rest) =
              ((runAcc { s with head := j } rest).1,
                (runAcc { s with head := j } rest).2.1,
                t0 :: (runAcc { s with head := j } rest).2.2) := by
            simp [runAcc, stepState, htp]
          rw [hrw]
          refine ⟨ids3, ps3, hinv3, ?_⟩
          show (↑(runAcc { s with head := j } rest).2.1 : Multiset T) +
              ↑(dataVals (Payload.Data t0 :: restp)) + ↑(readyList s.sigs) =
            (↑(t0 :: (runAcc { s with head := j } rest).2.2) : Multiset T) +
              ↑(dataVals ps3) +
              ↑(readyList (runAcc { s with head := j } rest).1.sigs)
          rw [dataVals_data_cons, ← Multiset.cons_coe, ← Multiset.cons_coe,
            ← Multiset.singleton_add, ← Multiset.singleton_add]
          calc (↑(runAcc { s with head := j } rest).2.1 : Multiset T) +
                ({t0} + (dataVals restp : Multiset T)) + ↑(readyList s.sigs) =
              {t0} + ((↑(runAcc { s with head := j } rest).2.1 : Multiset T) +
                (dataVals restp : Multiset T) + ↑(readyList s.sigs)) := by
                abel
            _ = {t0} + ((↑(runAcc { s with head := j } rest).2.2 : Multiset T) +
                (dataVals ps3 : Multiset T) +
                ↑(readyList (runAcc { s with head := j } rest).1.sigs)) := by
                rw [heq]
            _ = _ := by abel
        | Blocked b =>
          subst hps0
          have hfd : frontDataVal s = none := by
            simp [frontDataVal, frontPayload_of_invAt hi]
          have htp := try_pop_no_data hfd
          obtain ⟨ids3, ps3, hinv3, heq⟩ := ih s _ _ hi
          have hrw : runAcc s (Op.tryPopOp :: rest) = runAcc s rest := by
            simp [runAcc, stepState, htp]
          rw [hrw]
          exact ⟨ids3, ps3, hinv3, heq⟩
    | popOp =>
      cases hps0 : ps with
      | nil =>
        subst hps0
        obtain ⟨s2, hstep, hinv2, hsigs, -, -⟩ :=
          pop_park_step hi (by intro p hp; simp at hp)
        obtain ⟨ids3, ps3, hinv3, heq⟩ := ih _ _ _ hinv2
        have hrw : runAcc s (Op.popOp :: rest) = runAcc s2 rest := by
          simp [runAcc, stepState, hstep]
        rw [hrw]
        refine ⟨ids3, ps3, hinv3, ?_⟩
        rw [hsigs, readyList_insert_notready] at heq
        have hdv : dataVals (([] : List (Payload T)) ++
            [Payload.Blocked s.sigId]) = dataVals ([] : List (Payload T)) :=
          dataVals_append_blocked _ _
        rw [hdv] at heq
        exact heq
      | cons q restp =>
        cases q with
        | Data t0 =>
          subst hps0
          obtain ⟨j, ids2, hids, htp, hinv2⟩ := pop_step_front_data_step hi
          obtain ⟨ids3, ps3, hinv3, heq⟩ := ih _ _ _ hinv2
          have hrw : runAcc s (Op.popOp :: rest) =
              ((runAcc { s with head := j } rest).1,
                (runAcc { s with head := j } rest).2.1,
                t0 :: (runAcc { s with head := j } rest).2.2) := by
            simp [runAcc, stepState, htp]
          rw [hrw]
          refine ⟨ids3, ps3, hinv3, ?_⟩
          show (↑(runAcc { s with head := j } rest).2.1 : Multiset T) +
              ↑(dataVals (Payload.Data t0 :: restp)) + ↑(readyList s.sigs) =
            (↑(t0 :: (runAcc { s with head := j } rest).2.2) : Multiset T) +
              ↑(dataVals ps3) +
              ↑(readyList (runAcc { s with head := j } rest).1.sigs)
          rw [dataVals_data_cons, ← Multiset.cons_coe, ← Multiset.cons_coe,
            ← Multiset.singleton_add, ← Multiset.singleton_add]
          calc (↑(runAcc { s with head := j } rest).2.1 : Multiset T) +
                ({t0} + (dataVals restp : Multiset T)) + ↑(readyList s.sigs) =
              {t0} + ((↑(runAcc { s with head := j } rest).2.1 : Multiset T) +
                (dataVals restp : Multiset T) + ↑(readyList s.sigs)) := by
                abel
            _ = {t0} + ((↑(runAcc { s with head := j } rest).2.2 : Multiset T) +
                (dataVals ps3 : Multiset T) +
                ↑(readyList (runAcc { s with head := j } rest).1.sigs)) := by
                rw [heq]
            _ = _ := by abel
        | Blocked b =>
          subst hps0
          obtain ⟨s2, hstep, hinv2, hsigs, -, -⟩ :=
            pop_park_step hi (allBlocked_of_head_blocked hi.uni)
          obtain ⟨ids3, ps3, hinv3, heq⟩ := ih _ _ _ hinv2
          have hrw : runAcc s (Op.popOp :: rest) = runAcc s2 rest := by
            simp [runAcc, stepState, hstep]
          rw [hrw]
          refine ⟨ids3, ps3, hinv3, ?_⟩
          rw [hsigs, readyList_insert_notready] at heq
          have hdv : dataVals ((Payload.Blocked b :: restp) ++
              [Payload.Blocked s.sigId]) =
              dataVals (Payload.Blocked b :: restp) :=
            dataVals_append_blocked _ _
          rw [hdv] at heq
          exact heq
    | isEmptyOp =>
      obtain ⟨ids3, ps3, hinv3, heq⟩ := ih s _ _ hi
      have hrw : runAcc s (Op.isEmptyOp :: rest) = runAcc s rest := by
        simp [runAcc, stepState]
      rw [hrw]
      exact ⟨ids3, ps3, hinv3, heq⟩

/-- Claim C2: conservation: for every finite schedule of operations run on a
fresh queue, the multiset of pushed values equals the multiset of values
returned by completed `try_pop` and `pop` calls, plus the values already
delivered into the signals of parked `pop` callers (those calls complete on
wakeup with exactly that value), plus the data values still stored in the
queue at the end: no value is lost, duplicated, or invented. -/
theorem claim2_conservation (T : Type) [Inhabited T] (ops : List (Op T)) :
    ((runAcc (new : QState T) ops).2.1 : Multiset T) =
      ((runAcc (new : QState T) ops).2.2 : Multiset T) +
      (queueData (runAcc (new : QState T) ops).1 : Multiset T) +
      (readyList (runAcc (new : QState T) ops).1.sigs : Multiset T) := by
  obtain ⟨ids2, ps2, hinv2, heq⟩ :=
    runAcc_conserve ops (new : QState T) [] [] (invAt_new T)
  have hqd : queueData (runAcc (new : QState T) ops).1 = dataVals ps2 := by
    unfold queueData
    rw [queuePayloads_eq hinv2]
  rw [hqd]
  calc ((runAcc (new : QState T) ops).2.1 : Multiset T) =
      ((runAcc (new : QState T) ops).2.1 : Multiset T) +
        (dataVals ([] : List (Payload T)) : Multiset T) +
        (readyList ((new : QState T).sigs) : Multiset T) := by
        show _ = _ + (↑([] : List T) : Multiset T) +
          (↑([] : List T) : Multiset T)
        simp
    _ = _ := heq

/-- Claim C6 witness: the hypotheses hold at the fresh queue, and the success
branch links the node. -/
theorem claim6_push_internal_contract_witness :
    lookupNode (new : QState Nat).heap 0 =
      some { payload := Payload.Data 0, next := none } ∧
    (∀ k ∈ keysOf (new : QState Nat).heap, k < (new : QState Nat).nextId) ∧
    (push_internal (new : QState Nat) 0 (Payload.Data 5)).1 = true :=
  ⟨rfl, by decide,
    ((claim6_push_internal_contract (new : QState Nat) 0 (Payload.Data 5)
      { payload := Payload.Data 0, next := none } rfl (by decide)).2 rfl).1⟩

end MsQueue
